import Mathlib

/-!
Verification of the plan-to-graph rendering core of `mcp-n8n` (`src/server.ts`).

The rendering core is `renderWorkflow`: it turns a plan (trigger kind,
optional cron expression, ordered step list) into an n8n workflow JSON
object `{nodes, connections}`.  JSON values are modelled by the inductive
type `JVal`; JSON objects are association lists in insertion order, as in
JavaScript.  All definitions below are translated from the TypeScript
source; spec-side definitions used for refinement comparisons carry a
`Spec` suffix and a doc comment saying so.
-/

/-- JSON-like values: strings, integers, arrays and objects (objects as
association lists in insertion order, as JavaScript objects are). -/
inductive JVal where
  | str : String → JVal
  | num : Int → JVal
  | arr : List JVal → JVal
  | obj : List (String × JVal) → JVal

/-- A JSON object: an association list of fields in insertion order. -/
abbrev JObj := List (String × JVal)

/-- Field lookup in an association list (first binding wins). -/
def alookup {α : Type} (k : String) : List (String × α) → Option α
  | [] => none
  | (k', v) :: rest => if k' = k then some v else alookup k rest

/-- JavaScript object spread `{...x, ...y}`: keys of `x` in their order
(values overridden by `y` where present), then the keys of `y` not in `x`. -/
def spreadMerge (x y : JObj) : JObj :=
  (x.map fun p => match alookup p.1 y with
    | some v => (p.1, v)
    | none => p)
  ++ y.filter fun p => (alookup p.1 x).isNone

/-- JavaScript `a || b` on an optional string: `undefined` and the empty
string are falsy and fall through to `b`. -/
def jsOrStr (x : Option String) (d : String) : String :=
  match x with
  | some v => if v = "" then d else v
  | none => d

/-- JavaScript truthiness of an optional string (`if (args.cron)`). -/
def strTruthy (x : Option String) : Bool :=
  match x with
  | some v => v ≠ ""
  | none => false

/-- An entry of the `NODE_SPECS` catalog: display name, fully qualified
n8n node type, and a defaults object. -/
structure NodeSpecT where
  display : String
  type : String
  defaults : JObj

/-- Catalog entry `NODE_SPECS['Manual Trigger']`. -/
def manualTriggerSpec : NodeSpecT :=
  { display := "Manual Trigger", type := "n8n-nodes-base.manualTrigger", defaults := [] }

/-- Catalog entry `NODE_SPECS['Cron']`. -/
def cronSpecEntry : NodeSpecT :=
  { display := "Cron", type := "n8n-nodes-base.cron", defaults := [] }

/-- Catalog entry `NODE_SPECS['Webhook']`. -/
def webhookSpec : NodeSpecT :=
  { display := "Webhook", type := "n8n-nodes-base.webhook",
    defaults := [("parameters", .obj [("path", .str "hook"), ("httpMethod", .str "POST")])] }

/-- Catalog entry `NODE_SPECS['HTTP Request']`. -/
def httpRequestSpec : NodeSpecT :=
  { display := "HTTP Request", type := "n8n-nodes-base.httpRequest", defaults := [] }

/-- The `NODE_SPECS` record as a lookup by display name (key access on a
JavaScript record: exact, case-sensitive string match; absent key gives
`undefined`, modelled as `none`). -/
def NODE_SPECS (name : String) : Option NodeSpecT :=
  if name = "Manual Trigger" then some manualTriggerSpec
  else if name = "Cron" then some cronSpecEntry
  else if name = "Webhook" then some webhookSpec
  else if name = "HTTP Request" then some httpRequestSpec
  else none

/-- The trigger selector of a plan (`z.enum(['manual', 'cron', 'webhook'])`). -/
inductive TriggerKind where
  | manual
  | cron
  | webhook
deriving DecidableEq

/-- One step of a plan (`RenderArgs.steps` element): optional id, display
type, parameters object (defaulted to `{}` by zod) and optional
`dependsOn` list. -/
structure StepSpecT where
  id : Option String
  type : String
  parameters : JObj
  dependsOn : Option (List String)

/-- The input of `renderWorkflow` (`RenderArgs`). -/
structure RenderArgsT where
  name : String
  trigger : TriggerKind
  cron : Option String
  steps : List StepSpecT

/-- Source helper `nextPos(idx)`: `[280 + idx * 220, 300]`. -/
def nextPos (idx : Nat) : Int × Int :=
  (280 + (idx : Int) * 220, 300)

/-- A canvas position rendered as the JSON array `[x, y]`. -/
def posJ (p : Int × Int) : JVal :=
  .arr [.num p.1, .num p.2]

/-- Decimal digit characters of a natural number, most significant first.
This is the reference value of JavaScript `String(n)` and of Lean's
`Nat.toString`; the bridge is proved below. -/
def natChars (n : Nat) : List Char :=
  if _h : n < 10 then [Nat.digitChar n]
  else natChars (n / 10) ++ [Nat.digitChar (n % 10)]
  termination_by n
  decreasing_by exact Nat.div_lt_self (by omega) (by omega)

/-- Numeric value of a digit character. -/
def digitVal (c : Char) : Nat :=
  c.toNat - 48

/-- Value of a digit-character list, most significant first. -/
def digitsVal (cs : List Char) : Nat :=
  cs.foldl (fun a c => a * 10 + digitVal c) 0

/-- The trigger node pushed by step 1 of `renderWorkflow`, as a JSON
object.  `manual` has no `parameters` field; `cron` starts from the
hard-coded `triggerFunctions` object and is overwritten with
`{ rule: args.cron }` when `args.cron` is truthy; `webhook` copies the
catalog defaults' `parameters` sub-object. -/
def triggerNode (args : RenderArgsT) : JObj :=
  match args.trigger with
  | .manual =>
    [("id", .str "1"), ("name", .str "Manual Trigger"),
     ("type", .str manualTriggerSpec.type), ("typeVersion", .num 1),
     ("position", posJ (nextPos 0))]
  | .cron =>
    [("id", .str "1"), ("name", .str "Cron"),
     ("type", .str cronSpecEntry.type), ("typeVersion", .num 1),
     ("parameters",
       if strTruthy args.cron then
         .obj [("rule", .str (jsOrStr args.cron ""))]
       else
         .obj [("triggerFunctions", .arr [.obj [("function", .str "everyMinute")]])]),
     ("position", posJ (nextPos 0))]
  | .webhook =>
    [("id", .str "1"), ("name", .str "Webhook"),
     ("type", .str webhookSpec.type), ("typeVersion", .num 1),
     ("parameters", (alookup "parameters" webhookSpec.defaults).getD (.obj [])),
     ("position", posJ (nextPos 0))]

/-- Source lookup `NODE_SPECS[s.type] || { type: s.type, display: s.type, defaults: {} }`. -/
def resolveSpec (t : String) : NodeSpecT :=
  (NODE_SPECS t).getD { display := t, type := t, defaults := [] }

/-- Source expression `spec.defaults.parameters || {}`: the `parameters` sub-object of a
catalog entry's defaults, or the empty object. -/
def defaultsParams (spec : NodeSpecT) : JObj :=
  match alookup "parameters" spec.defaults with
  | some (.obj o) => o
  | _ => []

/-- The node pushed for a step at ordinal `ord` (ordinals start at 2). -/
def stepNode (s : StepSpecT) (ord : Nat) : JObj :=
  let spec := resolveSpec s.type
  [("id", .str (toString ord)), ("name", .str s.type),
   ("type", .str spec.type), ("typeVersion", .num 1),
   ("parameters", .obj (spreadMerge (defaultsParams spec) s.parameters)),
   ("position", posJ (nextPos (ord - 1)))]

/-- The step nodes pushed by step 2 of `renderWorkflow`, starting at
ordinal `ord`. -/
def stepNodes (ord : Nat) : List StepSpecT → List JObj
  | [] => []
  | s :: rest => stepNode s ord :: stepNodes (ord + 1) rest

/-- The key a step registers in `idByStep`:
`s.id || s.type + "-" + order` (empty `s.id` is falsy). -/
def stepKey (s : StepSpecT) (ord : Nat) : String :=
  jsOrStr s.id (s.type ++ "-" ++ toString ord)

/-- The `idByStep` bindings in assignment order, for steps starting at
ordinal `ord`. -/
def idByStepEntries (ord : Nat) : List StepSpecT → List (String × String)
  | [] => []
  | s :: rest => (stepKey s ord, toString ord) :: idByStepEntries (ord + 1) rest

/-- The `idByStep` record: assignment order with later assignments
winning, hence lookup on the reversed binding list. -/
def idByStep (steps : List StepSpecT) : List (String × String) :=
  (idByStepEntries 2 steps).reverse

/-- A connection edge `{ node: target, type: 'main', index: 0 }`. -/
def mkEdge (target : String) : JVal :=
  .obj [("node", .str target), ("type", .str "main"), ("index", .num 0)]

/-- The fan-out value stored under a source id:
`{ main: [[ ...edges ]] }`. -/
def mainWrap (es : List JVal) : JVal :=
  .obj [("main", .arr [.arr es])]

/-- Source mutation `connections[p].main[0].push(edge)` on an existing fan-out value. -/
def addToMain (v : JVal) (target : String) : JVal :=
  match v with
  | .obj [("main", .arr [.arr es])] => mainWrap (es ++ [mkEdge target])
  | other => other

/-- Source mutation `connections[p] = connections[p] || { main: [[]] };
connections[p].main[0].push({ node: current, type: 'main', index: 0 })`:
append an edge to source `p`, creating its fan-out entry at the end of
the object if absent (JavaScript objects keep insertion order). -/
def pushEdge : JObj → String → String → JObj
  | [], p, target => [(p, mainWrap [mkEdge target])]
  | (k, v) :: rest, p, target =>
    if k = p then (k, addToMain v target) :: rest
    else (k, v) :: pushEdge rest p target

/-- The parent list of a step in the connection loop:
`s.dependsOn && s.dependsOn.length ? s.dependsOn.map(k => k === 'trigger' ? triggerId : idByStep[k] || prev) : [prev]`. -/
def parentsOf (s : StepSpecT) (idMap : List (String × String)) (prev : String) : List String :=
  match s.dependsOn with
  | some deps =>
    if deps.length ≠ 0 then
      deps.map fun k => if k = "trigger" then "1" else jsOrStr (alookup k idMap) prev
    else [prev]
  | none => [prev]

/-- The connection loop of `renderWorkflow` (step 3): threads the
accumulated connections object and the `prev` cursor over the steps,
`i` being the 0-based loop index; returns the final connections object
together with the final cursor. -/
def connLoop (idMap : List (String × String)) :
    JObj → String → Nat → List StepSpecT → JObj × String
  | conns, prev, _, [] => (conns, prev)
  | conns, prev, i, s :: rest =>
    let current := toString (i + 2)
    let parents := parentsOf s idMap prev
    let conns2 := parents.foldl (fun c p => pushEdge c p current) conns
    connLoop idMap conns2 current (i + 1) rest

/-- The result of `renderWorkflow`: `{ nodes, connections }`. -/
structure Rendered where
  nodes : List JObj
  connections : JObj

/-- Function `renderWorkflow` from the source: trigger node, step nodes, then the
connection loop starting from cursor `'1'`. -/
def renderWorkflow (args : RenderArgsT) : Rendered :=
  { nodes := triggerNode args :: stepNodes 2 args.steps,
    connections := (connLoop (idByStep args.steps) [] "1" 0 args.steps).1 }

/-- A step with no explicit dependencies: `dependsOn` absent or empty. -/
def noDepends (s : StepSpecT) : Prop :=
  s.dependsOn = none ∨ s.dependsOn = some []

instance (s : StepSpecT) : Decidable (noDepends s) := by
  unfold noDepends; infer_instance

/-- The connections object records an edge from source `p` to target `t`. -/
def hasEdge (conns : JObj) (p t : String) : Prop :=
  ∃ es, alookup p conns = some (mainWrap es) ∧ mkEdge t ∈ es

/-- Well-formedness of a connections object: every value is a
`{ main: [[...]] }` fan-out holding only `{node, type, index}` edges. -/
def wfConns (conns : JObj) : Prop :=
  ∀ kv ∈ conns, ∃ es, kv.2 = mainWrap es ∧ ∀ e ∈ es, ∃ t, e = mkEdge t

/-- A linear chain of single-edge fan-outs: sources `start`, `start+1`,
…, `start+n-1`, each pointing at the next id. -/
def chainFrom (start n : Nat) : JObj :=
  (List.range n).map fun j =>
    (toString (start + j), mainWrap [mkEdge (toString (start + j + 1))])

/-- The connections of a pure linear chain trigger → step1 → … → stepN. -/
def chainConns (n : Nat) : JObj :=
  chainFrom 1 n

/-- The node at index `i` of a rendered workflow (defaulting to the
empty object out of range). -/
def nodeAt (r : Rendered) (i : Nat) : JObj :=
  r.nodes.getD i []

/-- Spec-side definition, following the spec's words for dependency
resolution: the literal token `trigger` maps to the trigger id `1`; any
other token is looked up in the step-key-to-id mapping, falling back to
the current `previous` cursor if unresolved. -/
def resolveTokenSpec (idMap : List (String × String)) (prev tok : String) : String :=
  if tok = "trigger" then "1" else (alookup tok idMap).getD prev

/-- Spec-side definition, following the spec's words for a step's parent
set: if `dependsOn` is present and non-empty, resolve each entry;
otherwise the singleton containing the `previous` cursor. -/
def parentsSpec (s : StepSpecT) (idMap : List (String × String)) (prev : String) : List String :=
  match s.dependsOn with
  | some deps =>
    if deps = [] then [prev] else deps.map (resolveTokenSpec idMap prev)
  | none => [prev]

/-- Spec-side definition, following the spec's words for the connection
phase: thread a `previous` cursor initialized to the trigger id over the
steps in input order, appending one edge from every parent to the
current step's id, then updating the cursor to the current id. -/
def connLoopSpec (idMap : List (String × String)) :
    JObj → String → Nat → List StepSpecT → JObj
  | conns, _, _, [] => conns
  | conns, prev, i, s :: rest =>
    let current := toString (i + 2)
    let conns2 := (parentsSpec s idMap prev).foldl (fun c p => pushEdge c p current) conns
    connLoopSpec idMap conns2 current (i + 1) rest

/-- Spec-side definition of the whole connection phase. -/
def connectionsSpec (args : RenderArgsT) : JObj :=
  connLoopSpec (idByStep args.steps) [] "1" 0 args.steps

/-- A plan with one `HTTP Request` step and no explicit dependencies. -/
def exPlanOneStep : RenderArgsT :=
  { name := "w", trigger := .manual, cron := none,
    steps := [{ id := none, type := "HTTP Request", parameters := [], dependsOn := none }] }

/-- A cron plan whose `cron` field is present but empty. -/
def exPlanEmptyCron : RenderArgsT :=
  { name := "w", trigger := .cron, cron := some "", steps := [] }

/-- A plan with two dependency-free steps. -/
def exPlanTwoSteps : RenderArgsT :=
  { name := "w", trigger := .manual, cron := none,
    steps := [{ id := none, type := "HTTP Request", parameters := [], dependsOn := none },
              { id := none, type := "Set", parameters := [], dependsOn := none }] }

/-- A plan whose second step explicitly depends on the trigger. -/
def exPlanTriggerDep : RenderArgsT :=
  { name := "w", trigger := .manual, cron := none,
    steps := [{ id := some "a", type := "X", parameters := [], dependsOn := none },
              { id := some "b", type := "Y", parameters := [], dependsOn := some ["trigger"] }] }

/-- A plan with one `Webhook`-typed step overriding a default parameter. -/
def exPlanWebhookStep : RenderArgsT :=
  { name := "w", trigger := .manual, cron := none,
    steps := [{ id := none, type := "Webhook",
                parameters := [("httpMethod", .str "GET"), ("x", .num 1)],
                dependsOn := none }] }

/-- A plan with two steps of the same unregistered type string. -/
def exPlanUnknownTwice : RenderArgsT :=
  { name := "w", trigger := .manual, cron := none,
    steps := [{ id := none, type := "Foo", parameters := [], dependsOn := none },
              { id := none, type := "Foo", parameters := [], dependsOn := none }] }

/-- A cron plan with a non-empty cron expression. -/
def exPlanCron : RenderArgsT :=
  { name := "w", trigger := .cron, cron := some "0 * * * *", steps := [] }

/-- A cron plan with no cron expression. -/
def exPlanCronNone : RenderArgsT :=
  { name := "w", trigger := .cron, cron := none, steps := [] }

/-- A plan whose first step has an out-of-order explicit dependency on
the second step, followed by two dependency-free steps. -/
def exPlanOutOfOrder : RenderArgsT :=
  { name := "w", trigger := .manual, cron := none,
    steps := [{ id := some "a", type := "X", parameters := [], dependsOn := some ["b"] },
              { id := some "b", type := "Y", parameters := [], dependsOn := none },
              { id := some "c", type := "Z", parameters := [], dependsOn := none }] }

/-- A plan whose only step has a dangling `dependsOn` token. -/
def exPlanDangling : RenderArgsT :=
  { name := "w", trigger := .manual, cron := none,
    steps := [{ id := none, type := "X", parameters := [], dependsOn := some ["zzz"] }] }

/-! ### Association list lemmas -/

@[simp] theorem alookup_nil {α : Type} (k : String) :
    alookup (α := α) k [] = none := rfl

@[simp] theorem alookup_cons {α : Type} (k k' : String) (v : α) (rest : List (String × α)) :
    alookup k ((k', v) :: rest) = if k' = k then some v else alookup k rest := rfl

theorem alookup_mem {α : Type} {k : String} {l : List (String × α)} {v : α}
    (h : alookup k l = some v) : (k, v) ∈ l := by
  induction l with
  | nil => simp at h
  | cons p rest ih =>
    obtain ⟨k', v'⟩ := p
    simp only [alookup_cons] at h
    by_cases hk : k' = k
    · subst hk
      rw [if_pos rfl] at h
      cases h
      exact List.mem_cons_self _ _
    · rw [if_neg hk] at h
      exact List.mem_cons_of_mem _ (ih h)

theorem alookup_append {α : Type} (k : String) (l1 l2 : List (String × α)) :
    alookup k (l1 ++ l2) = match alookup k l1 with
      | some v => some v
      | none => alookup k l2 := by
  induction l1 with
  | nil => simp
  | cons p rest ih =>
    obtain ⟨k', v'⟩ := p
    by_cases hk : k' = k <;> simp [hk, ih]

/-! ### Decimal string lemmas: `toString` on `Nat` is the digit string -/

theorem natChars_lt {n : Nat} (h : n < 10) : natChars n = [Nat.digitChar n] := by
  rw [natChars]
  simp [h]

theorem natChars_ge {n : Nat} (h : ¬ n < 10) :
    natChars n = natChars (n / 10) ++ [Nat.digitChar (n % 10)] := by
  rw [natChars]
  simp [h]

theorem toDigitsCore_eq_natChars :
    ∀ (f n : Nat) (ds : List Char), n < f →
      Nat.toDigitsCore 10 f n ds = natChars n ++ ds := by
  intro f
  induction f with
  | zero => intro n ds h; omega
  | succ f ih =>
    intro n ds h
    by_cases h10 : n / 10 = 0
    · have hn : n < 10 := by omega
      simp only [Nat.toDigitsCore, h10, if_pos]
      rw [natChars_lt hn, Nat.mod_eq_of_lt hn]
      rfl
    · have hn : ¬ n < 10 := by omega
      simp only [Nat.toDigitsCore, h10, if_neg, if_false]
      rw [ih (n / 10) _ (by omega), natChars_ge hn, List.append_assoc]
      rfl

theorem toString_nat_def (n : Nat) : toString n = (natChars n).asString := by
  show Nat.repr n = (natChars n).asString
  unfold Nat.repr Nat.toDigits
  rw [toDigitsCore_eq_natChars (n + 1) n [] (Nat.lt_succ_self n), List.append_nil]

theorem digitVal_digitChar {d : Nat} (h : d < 10) : digitVal (Nat.digitChar d) = d := by
  interval_cases d <;> rfl

@[simp] theorem digitsVal_nil : digitsVal [] = 0 := rfl

theorem digitsVal_append_digit (xs : List Char) (c : Char) :
    digitsVal (xs ++ [c]) = digitsVal xs * 10 + digitVal c := by
  simp [digitsVal, List.foldl_append]

theorem digitsVal_natChars (n : Nat) : digitsVal (natChars n) = n := by
  induction n using Nat.strong_induction_on with
  | _ n ih =>
    by_cases h : n < 10
    · rw [natChars_lt h]
      simp [digitsVal, digitVal_digitChar h]
    · rw [natChars_ge h, digitsVal_append_digit,
        ih (n / 10) (Nat.div_lt_self (by omega) (by omega)),
        digitVal_digitChar (Nat.mod_lt _ (by omega))]
      omega

theorem natChars_ne_nil (n : Nat) : natChars n ≠ [] := by
  by_cases h : n < 10
  · rw [natChars_lt h]; simp
  · rw [natChars_ge h]; simp

theorem toString_nat_inj {m n : Nat} (h : toString m = toString n) : m = n := by
  rw [toString_nat_def, toString_nat_def] at h
  have hd : natChars m = natChars n := congrArg String.data h
  have := congrArg digitsVal hd
  rwa [digitsVal_natChars, digitsVal_natChars] at this

theorem toString_nat_ne_empty (n : Nat) : toString n ≠ "" := by
  rw [toString_nat_def]
  intro h
  exact natChars_ne_nil n (congrArg String.data h)

/-! ### Node list lemmas -/

theorem stepNodes_length (ord : Nat) (steps : List StepSpecT) :
    (stepNodes ord steps).length = steps.length := by
  induction steps generalizing ord with
  | nil => rfl
  | cons s rest ih => simp [stepNodes, ih]

theorem stepNodes_getD (steps : List StepSpecT) (ord i : Nat) (h : i < steps.length) :
    (stepNodes ord steps).getD i [] = stepNode (steps.get ⟨i, h⟩) (ord + i) := by
  induction steps generalizing ord i with
  | nil => simp at h
  | cons s rest ih =>
    cases i with
    | zero => simp [stepNodes]
    | succ j =>
      have hj : j < rest.length := by
        simp only [List.length_cons] at h
        omega
      show (stepNode s ord :: stepNodes (ord + 1) rest).getD (j + 1) [] = _
      rw [List.getD_cons_succ, ih (ord + 1) j hj]
      have hget : (s :: rest).get ⟨j + 1, h⟩ = rest.get ⟨j, hj⟩ := rfl
      rw [hget]
      congr 1
      omega

theorem nodeAt_zero (args : RenderArgsT) :
    nodeAt (renderWorkflow args) 0 = triggerNode args := rfl

theorem nodeAt_step (args : RenderArgsT) (i : Nat) (h : i < args.steps.length) :
    nodeAt (renderWorkflow args) (i + 1) = stepNode (args.steps.get ⟨i, h⟩) (i + 2) := by
  show (triggerNode args :: stepNodes 2 args.steps).getD (i + 1) [] = _
  rw [List.getD_cons_succ, stepNodes_getD args.steps 2 i h]
  congr 1
  omega

/-! ### pushEdge and connection loop lemmas -/

theorem pushEdge_fresh {c : JObj} {p : String} (t : String)
    (h : ∀ kv ∈ c, kv.1 ≠ p) :
    pushEdge c p t = c ++ [(p, mainWrap [mkEdge t])] := by
  induction c with
  | nil => rfl
  | cons kv rest ih =>
    obtain ⟨k, v⟩ := kv
    have hk : k ≠ p := h (k, v) (List.mem_cons_self _ _)
    simp only [pushEdge, if_neg hk, List.cons_append, List.cons.injEq, true_and]
    exact ih fun kv hkv => h kv (List.mem_cons_of_mem _ hkv)

theorem wfConns_nil : wfConns [] := by
  intro kv hkv
  simp at hkv

theorem addToMain_mainWrap (es : List JVal) (t : String) :
    addToMain (mainWrap es) t = mainWrap (es ++ [mkEdge t]) := rfl

theorem wfConns_pushEdge {c : JObj} (p t : String) (hwf : wfConns c) :
    wfConns (pushEdge c p t) := by
  induction c with
  | nil =>
    intro kv hkv
    simp only [pushEdge, List.mem_singleton] at hkv
    subst hkv
    exact ⟨[mkEdge t], rfl, by simp⟩
  | cons kv0 rest ih =>
    obtain ⟨k, v⟩ := kv0
    simp only [pushEdge]
    by_cases hk : k = p
    · rw [if_pos hk]
      intro kv hkv
      rcases List.mem_cons.mp hkv with hkv | hkv
      · subst hkv
        obtain ⟨es, hv, hes⟩ := hwf (k, v) (List.mem_cons_self _ _)
        simp only at hv
        subst hv
        refine ⟨es ++ [mkEdge t], addToMain_mainWrap es t, ?_⟩
        intro e he
        rcases List.mem_append.mp he with he | he
        · exact hes e he
        · exact ⟨t, List.mem_singleton.mp he⟩
      · exact hwf kv (List.mem_cons_of_mem _ hkv)
    · rw [if_neg hk]
      intro kv hkv
      rcases List.mem_cons.mp hkv with hkv | hkv
      · subst hkv
        exact hwf (k, v) (List.mem_cons_self _ _)
      · exact ih (fun kv' hkv' => hwf kv' (List.mem_cons_of_mem _ hkv')) kv hkv

theorem hasEdge_pushEdge_self {c : JObj} {p t : String} (hwf : wfConns c) :
    hasEdge (pushEdge c p t) p t := by
  induction c with
  | nil =>
    refine ⟨[mkEdge t], ?_, List.mem_singleton.mpr rfl⟩
    simp [pushEdge]
  | cons kv rest ih =>
    obtain ⟨k, v⟩ := kv
    simp only [pushEdge]
    by_cases hk : k = p
    · subst hk
      rw [if_pos rfl]
      obtain ⟨es, hv, -⟩ := hwf (k, v) (List.mem_cons_self _ _)
      simp only at hv
      subst hv
      refine ⟨es ++ [mkEdge t], ?_, List.mem_append_right _ (List.mem_singleton.mpr rfl)⟩
      simp [addToMain_mainWrap]
    · rw [if_neg hk]
      obtain ⟨es, h1, h2⟩ := ih fun kv' hkv' => hwf kv' (List.mem_cons_of_mem _ hkv')
      exact ⟨es, by simpa [alookup_cons, hk] using h1, h2⟩

theorem hasEdge_pushEdge_mono {c : JObj} {p t : String} (q u : String)
    (h : hasEdge c p t) : hasEdge (pushEdge c q u) p t := by
  induction c with
  | nil =>
    obtain ⟨es, h1, -⟩ := h
    simp at h1
  | cons kv rest ih =>
    obtain ⟨k, v⟩ := kv
    obtain ⟨es, h1, h2⟩ := h
    simp only [pushEdge]
    by_cases hkq : k = q
    · rw [if_pos hkq]
      by_cases hkp : k = p
      · subst hkp
        rw [alookup_cons, if_pos rfl] at h1
        injection h1 with hv
        subst hv
        exact ⟨es ++ [mkEdge u], by simp [addToMain_mainWrap],
          List.mem_append_left _ h2⟩
      · rw [alookup_cons, if_neg hkp] at h1
        exact ⟨es, by simp only [alookup_cons, if_neg hkp]; exact h1, h2⟩
    · rw [if_neg hkq]
      by_cases hkp : k = p
      · subst hkp
        rw [alookup_cons, if_pos rfl] at h1
        injection h1 with hv
        subst hv
        exact ⟨es, by simp, h2⟩
      · rw [alookup_cons, if_neg hkp] at h1
        obtain ⟨es', h1', h2'⟩ := ih ⟨es, h1, h2⟩
        exact ⟨es', by simp only [alookup_cons, if_neg hkp]; exact h1', h2'⟩

theorem wfConns_foldl {c : JObj} (ps : List String) (cur : String) (hwf : wfConns c) :
    wfConns (ps.foldl (fun c p => pushEdge c p cur) c) := by
  induction ps generalizing c with
  | nil => exact hwf
  | cons q rest ih => exact ih (wfConns_pushEdge q cur hwf)

theorem hasEdge_foldl_mono {c : JObj} {p t : String} (ps : List String) (cur : String)
    (h : hasEdge c p t) : hasEdge (ps.foldl (fun c p => pushEdge c p cur) c) p t := by
  induction ps generalizing c with
  | nil => exact h
  | cons q rest ih => exact ih (hasEdge_pushEdge_mono q cur h)

theorem hasEdge_foldl_of_mem {c : JObj} {p : String} {ps : List String} (cur : String)
    (hwf : wfConns c) (hp : p ∈ ps) :
    hasEdge (ps.foldl (fun c p => pushEdge c p cur) c) p cur := by
  induction ps generalizing c with
  | nil => simp at hp
  | cons q rest ih =>
    rcases List.mem_cons.mp hp with hq | hmem
    · subst hq
      exact hasEdge_foldl_mono rest cur (hasEdge_pushEdge_self hwf)
    · exact ih (wfConns_pushEdge q cur hwf) hmem

theorem connLoop_fst_wf (idMap : List (String × String)) :
    ∀ (steps : List StepSpecT) (c : JObj) (prev : String) (i : Nat), wfConns c →
      wfConns (connLoop idMap c prev i steps).1 := by
  intro steps
  induction steps with
  | nil => intro c prev i hwf; exact hwf
  | cons s rest ih =>
    intro c prev i hwf
    simp only [connLoop]
    exact ih _ _ _ (wfConns_foldl _ _ hwf)

theorem connLoop_hasEdge_mono (idMap : List (String × String)) {p t : String} :
    ∀ (steps : List StepSpecT) (c : JObj) (prev : String) (i : Nat), hasEdge c p t →
      hasEdge (connLoop idMap c prev i steps).1 p t := by
  intro steps
  induction steps with
  | nil => intro c prev i h; exact h
  | cons s rest ih =>
    intro c prev i h
    simp only [connLoop]
    exact ih _ _ _ (hasEdge_foldl_mono _ _ h)

theorem connLoop_append (idMap : List (String × String)) :
    ∀ (xs ys : List StepSpecT) (c : JObj) (prev : String) (i : Nat),
      connLoop idMap c prev i (xs ++ ys)
        = connLoop idMap (connLoop idMap c prev i xs).1
            (connLoop idMap c prev i xs).2 (i + xs.length) ys := by
  intro xs
  induction xs with
  | nil => intro ys c prev i; simp [connLoop]
  | cons x rest ih =>
    intro ys c prev i
    have hlen : i + (x :: rest).length = i + 1 + rest.length := by
      simp only [List.length_cons]
      omega
    simp only [List.cons_append, connLoop]
    rw [hlen]
    exact ih ys _ _ (i + 1)

theorem connLoop_snd (idMap : List (String × String)) :
    ∀ (xs : List StepSpecT) (c : JObj) (prev : String) (i : Nat), xs ≠ [] →
      (connLoop idMap c prev i xs).2 = toString (i + xs.length + 1) := by
  intro xs
  induction xs with
  | nil => intro c prev i h; exact absurd rfl h
  | cons x rest ih =>
    intro c prev i _
    by_cases hr : rest = []
    · subst hr
      simp only [connLoop]
      congr 1
    · simp only [connLoop]
      rw [ih _ _ (i + 1) hr]
      congr 1
      simp only [List.length_cons]
      omega

theorem parentsOf_noDepends {s : StepSpecT} (idMap : List (String × String))
    (prev : String) (h : noDepends s) : parentsOf s idMap prev = [prev] := by
  rcases h with h | h <;> simp [parentsOf, h]

theorem parentsOf_ne_nil (s : StepSpecT) (idMap : List (String × String))
    (prev : String) : parentsOf s idMap prev ≠ [] := by
  unfold parentsOf
  cases hd : s.dependsOn with
  | none => simp
  | some deps =>
    by_cases hne : deps.length ≠ 0
    · have hdeps : deps ≠ [] := by
        intro hnil
        subst hnil
        simp at hne
      simp only [if_pos hne, ne_eq, List.map_eq_nil_iff]
      exact hdeps
    · simp [hne]

/-! ### The dependency-free linear chain -/

theorem chainFrom_zero (start : Nat) : chainFrom start 0 = [] := rfl

theorem chainFrom_succ (start n : Nat) :
    chainFrom start (n + 1)
      = (toString start, mainWrap [mkEdge (toString (start + 1))])
          :: chainFrom (start + 1) n := by
  unfold chainFrom
  rw [List.range_succ_eq_map, List.map_cons, List.map_map]
  congr 1
  apply List.map_congr_left
  intro j _
  have h1 : start + Nat.succ j = start + 1 + j := by omega
  have h2 : start + Nat.succ j + 1 = start + 1 + j + 1 := by omega
  simp only [Function.comp_apply, h1, h2]

theorem connLoop_noDeps (idMap : List (String × String)) :
    ∀ (steps : List StepSpecT) (i : Nat) (c : JObj),
      (∀ s ∈ steps, noDepends s) →
      (∀ kv ∈ c, ∀ j : Nat, i + 1 ≤ j → kv.1 ≠ toString j) →
      (connLoop idMap c (toString (i + 1)) i steps).1
        = c ++ chainFrom (i + 1) steps.length := by
  intro steps
  induction steps with
  | nil =>
    intro i c _ _
    simp [connLoop, chainFrom]
  | cons s rest ih =>
    intro i c hdeps hfresh
    simp only [connLoop]
    rw [parentsOf_noDepends idMap _ (hdeps s (List.mem_cons_self _ _))]
    simp only [List.foldl_cons, List.foldl_nil]
    rw [pushEdge_fresh _ (fun kv hkv => hfresh kv hkv (i + 1) (by omega))]
    have hfresh2 : ∀ kv ∈ c ++ [(toString (i + 1), mainWrap [mkEdge (toString (i + 2))])],
        ∀ j : Nat, i + 1 + 1 ≤ j → kv.1 ≠ toString j := by
      intro kv hkv j hj
      rcases List.mem_append.mp hkv with hkv | hkv
      · exact hfresh kv hkv j (by omega)
      · rw [List.mem_singleton] at hkv
        subst hkv
        intro heq
        have := toString_nat_inj heq
        omega
    have hrec := ih (i + 1) _ (fun s' hs' => hdeps s' (List.mem_cons_of_mem _ hs')) hfresh2
    calc (connLoop idMap (c ++ [(toString (i + 1), mainWrap [mkEdge (toString (i + 2))])])
            (toString (i + 2)) (i + 1) rest).1
        = (c ++ [(toString (i + 1), mainWrap [mkEdge (toString (i + 2))])])
            ++ chainFrom (i + 1 + 1) rest.length := hrec
      _ = c ++ ((toString (i + 1), mainWrap [mkEdge (toString (i + 2))])
            :: chainFrom (i + 1 + 1) rest.length) := by simp
      _ = c ++ chainFrom (i + 1) (s :: rest).length := by
            rw [List.length_cons, chainFrom_succ]

/-- C1: for a plan whose steps all lack `dependsOn`, the render has
exactly N+1 nodes and its connections are the single linear chain
trigger → step1 → … → stepN, each of the N sources carrying exactly one
outgoing edge; with an empty step list the chain (and the connection
map) is empty while the trigger node remains. -/
theorem render_noDeps_linear_chain (args : RenderArgsT)
    (h : ∀ s ∈ args.steps, noDepends s) :
    (renderWorkflow args).nodes.length = args.steps.length + 1 ∧
    (renderWorkflow args).connections = chainConns args.steps.length ∧
    ∀ kv ∈ (renderWorkflow args).connections, ∃ t, kv.2 = mainWrap [mkEdge t] := by
  have hconn : (renderWorkflow args).connections = chainConns args.steps.length := by
    show (connLoop (idByStep args.steps) [] "1" 0 args.steps).1 = _
    have := connLoop_noDeps (idByStep args.steps) args.steps 0 [] h (by simp)
    simpa [chainConns] using this
  refine ⟨?_, hconn, ?_⟩
  · show (triggerNode args :: stepNodes 2 args.steps).length = _
    simp [stepNodes_length]
  · intro kv hkv
    rw [hconn] at hkv
    unfold chainConns chainFrom at hkv
    obtain ⟨j, -, hj⟩ := List.mem_map.mp hkv
    exact ⟨toString (1 + j + 1), by rw [← hj]⟩

/-- Witness for C1 at a concrete two-step plan. -/
theorem render_noDeps_linear_chain_witness :
    (renderWorkflow exPlanTwoSteps).nodes.length = 3 ∧
    (renderWorkflow exPlanTwoSteps).connections = chainConns 2 :=
  ⟨(render_noDeps_linear_chain exPlanTwoSteps (by decide)).1,
   (render_noDeps_linear_chain exPlanTwoSteps (by decide)).2.1⟩

/-! ### Node field lemmas -/

theorem triggerNode_id (args : RenderArgsT) :
    alookup "id" (triggerNode args) = some (.str "1") := by
  obtain ⟨n, tr, c, st⟩ := args
  cases tr <;> rfl

theorem triggerNode_position (args : RenderArgsT) :
    alookup "position" (triggerNode args) = some (.arr [.num 280, .num 300]) := by
  obtain ⟨n, tr, c, st⟩ := args
  cases tr <;> rfl

theorem stepNode_id (s : StepSpecT) (ord : Nat) :
    alookup "id" (stepNode s ord) = some (.str (toString ord)) := rfl

theorem stepNode_type (s : StepSpecT) (ord : Nat) :
    alookup "type" (stepNode s ord) = some (.str (resolveSpec s.type).type) := rfl

theorem stepNode_params (s : StepSpecT) (ord : Nat) :
    alookup "parameters" (stepNode s ord)
      = some (.obj (spreadMerge (defaultsParams (resolveSpec s.type)) s.parameters)) := rfl

theorem stepNode_position (s : StepSpecT) (ord : Nat) :
    alookup "position" (stepNode s ord) = some (posJ (nextPos (ord - 1))) := rfl

/-- C8: ids and positions are assigned by position: the trigger has id
`"1"` at `(280, 300)`, and the step at ordinal `k = i + 2` (steps are
numbered from 2 in input order) has id `toString k` and position
`(280 + 220*(k-1), 300)`. -/
theorem render_ids_positions (args : RenderArgsT) (i : Nat) (h : i < args.steps.length) :
    alookup "id" (nodeAt (renderWorkflow args) 0) = some (.str "1") ∧
    alookup "position" (nodeAt (renderWorkflow args) 0) = some (.arr [.num 280, .num 300]) ∧
    alookup "id" (nodeAt (renderWorkflow args) (i + 1)) = some (.str (toString (i + 2))) ∧
    alookup "position" (nodeAt (renderWorkflow args) (i + 1))
      = some (.arr [.num (280 + 220 * ((i : Int) + 1)), .num 300]) := by
  refine ⟨triggerNode_id args, triggerNode_position args, ?_, ?_⟩
  · rw [nodeAt_step args i h, stepNode_id]
  · rw [nodeAt_step args i h, stepNode_position]
    have harith : ((i + 1 : Nat) : Int) * 220 = 220 * ((i : Int) + 1) := by
      push_cast
      ring
    simp [posJ, nextPos, harith]
    ring

/-- Witness for C8 at a one-step plan: step ordinal 2 sits at x = 500. -/
theorem render_ids_positions_witness :
    alookup "id" (nodeAt (renderWorkflow exPlanOneStep) 1) = some (.str "2") ∧
    alookup "position" (nodeAt (renderWorkflow exPlanOneStep) 1)
      = some (.arr [.num 500, .num 300]) := by
  have h := render_ids_positions exPlanOneStep 0 (by decide)
  refine ⟨h.2.2.1, ?_⟩
  rw [h.2.2.2]
  norm_num

/-- C10: a cron trigger with no cron expression keeps the hard-coded
`triggerFunctions: [{function: everyMinute}]` parameters object. -/
theorem cron_default_params (args : RenderArgsT)
    (h1 : args.trigger = .cron) (h2 : args.cron = none) :
    alookup "parameters" (nodeAt (renderWorkflow args) 0)
      = some (.obj [("triggerFunctions", .arr [.obj [("function", .str "everyMinute")]])]) := by
  obtain ⟨n, tr, c, st⟩ := args
  simp only at h1 h2
  subst h1
  subst h2
  rfl

/-- Witness for C10 at a concrete cron plan without an expression. -/
theorem cron_default_params_witness :
    alookup "parameters" (nodeAt (renderWorkflow exPlanCronNone) 0)
      = some (.obj [("triggerFunctions", .arr [.obj [("function", .str "everyMinute")]])]) :=
  cron_default_params exPlanCronNone rfl rfl

/-- C6 counterexample: with trigger=cron and `cron` present but equal to
the empty string, the trigger parameters stay the hard-coded
`triggerFunctions` object instead of `{ rule: "" }`: the code tests
JavaScript truthiness, not presence. -/
theorem cron_present_empty_counterexample :
    exPlanEmptyCron.cron = some "" ∧
    alookup "parameters" (nodeAt (renderWorkflow exPlanEmptyCron) 0)
      = some (.obj [("triggerFunctions", .arr [.obj [("function", .str "everyMinute")]])]) ∧
    alookup "parameters" (nodeAt (renderWorkflow exPlanEmptyCron) 0)
      ≠ some (.obj [("rule", .str "")]) := by
  refine ⟨rfl, rfl, ?_⟩
  intro hcl
  have h2 := congrArg (fun x : Option JVal => match x with
    | some (JVal.obj l) => alookup "rule" l
    | _ => none) hcl
  exact Option.noConfusion h2

/-- C6 (amended): when trigger=cron and the cron expression is present
and non-empty, the trigger parameters are exactly `{ rule: expr }`. -/
theorem cron_rule_params (args : RenderArgsT) (c : String) (h1 : args.trigger = .cron)
    (h2 : args.cron = some c) (h3 : c ≠ "") :
    alookup "parameters" (nodeAt (renderWorkflow args) 0)
      = some (.obj [("rule", .str c)]) := by
  obtain ⟨n, tr, cr, st⟩ := args
  simp only at h1 h2
  subst h1
  subst h2
  have ht : strTruthy (some c) = true := by simp [strTruthy, h3]
  have hjs : jsOrStr (some c) "" = c := by simp [jsOrStr, h3]
  rw [nodeAt_zero]
  simp only [triggerNode, ht, if_true, hjs]
  rfl

/-- Witness for the amended C6 at the cron expression `0 * * * *`. -/
theorem cron_rule_params_witness :
    alookup "parameters" (nodeAt (renderWorkflow exPlanCron) 0)
      = some (.obj [("rule", .str "0 * * * *")]) :=
  cron_rule_params exPlanCron "0 * * * *" rfl rfl (by decide)

/-! ### Shallow merge characterization -/

theorem alookup_map_override (x y : JObj) (k : String) :
    alookup k (x.map fun p => match alookup p.1 y with
        | some v => (p.1, v)
        | none => p)
      = match alookup k x with
        | some v => (match alookup k y with
            | some w => some w
            | none => some v)
        | none => none := by
  induction x with
  | nil => simp
  | cons p rest ih =>
    obtain ⟨k1, v1⟩ := p
    by_cases hk : k1 = k
    · subst hk
      cases hy : alookup k1 y <;> simp [hy, ih]
    · cases hy : alookup k1 y <;> simp [hy, hk, ih]

theorem alookup_filter_of_none (x y : JObj) (k : String) (hx : alookup k x = none) :
    alookup k (y.filter fun p => (alookup p.1 x).isNone) = alookup k y := by
  induction y with
  | nil => simp
  | cons p rest ih =>
    obtain ⟨k1, v1⟩ := p
    by_cases hk : k1 = k
    · subst hk
      simp [List.filter_cons, hx, ih]
    · by_cases hkeep : (alookup k1 x).isNone <;>
        simp [List.filter_cons, hkeep, hk, ih]

theorem alookup_filter_of_some (x y : JObj) (k : String) {v : JVal}
    (hx : alookup k x = some v) :
    alookup k (y.filter fun p => (alookup p.1 x).isNone) = none := by
  induction y with
  | nil => simp
  | cons p rest ih =>
    obtain ⟨k1, v1⟩ := p
    by_cases hk : k1 = k
    · subst hk
      simp [List.filter_cons, hx, ih]
    · by_cases hkeep : (alookup k1 x).isNone <;>
        simp [List.filter_cons, hkeep, hk, ih]

theorem spreadMerge_alookup (x y : JObj) (k : String) :
    alookup k (spreadMerge x y)
      = match alookup k y with
        | some v => some v
        | none => alookup k x := by
  unfold spreadMerge
  rw [alookup_append, alookup_map_override]
  cases hx : alookup k x with
  | some v =>
    cases hy : alookup k y <;> simp [hy]
  | none =>
    rw [alookup_filter_of_none x y k hx]
    cases hy : alookup k y <;> simp [hy]

/-- C4: every step node's parameters are the shallow, step-wins merge of
the catalog entry's default `parameters` sub-object with the step's own
parameters; concretely, defaults `{a:1,b:2}` merged with `{b:3,c:4}`
give exactly `{a:1,b:3,c:4}`. -/
theorem step_params_merge (args : RenderArgsT) (i : Nat) (h : i < args.steps.length) :
    (∃ m, alookup "parameters" (nodeAt (renderWorkflow args) (i + 1)) = some (.obj m) ∧
      ∀ k, alookup k m
        = match alookup k (args.steps.get ⟨i, h⟩).parameters with
          | some v => some v
          | none => alookup k (defaultsParams (resolveSpec (args.steps.get ⟨i, h⟩).type))) ∧
    spreadMerge [("a", .num 1), ("b", .num 2)] [("b", .num 3), ("c", .num 4)]
      = [("a", .num 1), ("b", .num 3), ("c", .num 4)] := by
  refine ⟨?_, rfl⟩
  rw [nodeAt_step args i h, stepNode_params]
  exact ⟨_, rfl, fun k => spreadMerge_alookup _ _ k⟩

/-- Witness for C4, instantiated at a one-step `Webhook` plan. -/
theorem step_params_merge_witness :
    spreadMerge [("a", .num 1), ("b", .num 2)] [("b", .num 3), ("c", .num 4)]
      = [("a", .num 1), ("b", .num 3), ("c", .num 4)] :=
  (step_params_merge exPlanWebhookStep 0 (by decide)).2

/-- C5: node-type resolution never fails: a known display name maps to
the catalog engine type, an unknown one is used verbatim, and two
distinct steps of the same unregistered type get distinct ids but the
same rendered type. -/
theorem nodeType_resolution (args : RenderArgsT) (i j : Nat)
    (hi : i < args.steps.length) (hj : j < args.steps.length) (hne : i ≠ j) :
    (∀ sp, NODE_SPECS (args.steps.get ⟨i, hi⟩).type = some sp →
      alookup "type" (nodeAt (renderWorkflow args) (i + 1)) = some (.str sp.type)) ∧
    (NODE_SPECS (args.steps.get ⟨i, hi⟩).type = none →
      alookup "type" (nodeAt (renderWorkflow args) (i + 1))
        = some (.str (args.steps.get ⟨i, hi⟩).type)) ∧
    alookup "id" (nodeAt (renderWorkflow args) (i + 1))
      ≠ alookup "id" (nodeAt (renderWorkflow args) (j + 1)) ∧
    ((args.steps.get ⟨i, hi⟩).type = (args.steps.get ⟨j, hj⟩).type →
      alookup "type" (nodeAt (renderWorkflow args) (i + 1))
        = alookup "type" (nodeAt (renderWorkflow args) (j + 1))) := by
  rw [nodeAt_step args i hi, nodeAt_step args j hj]
  refine ⟨?_, ?_, ?_, ?_⟩
  · intro sp hsp
    rw [stepNode_type]
    unfold resolveSpec
    rw [hsp]
    rfl
  · intro hnone
    rw [stepNode_type]
    unfold resolveSpec
    rw [hnone]
    rfl
  · rw [stepNode_id, stepNode_id]
    intro heq
    injection heq with heq
    injection heq with heq
    have h2 := toString_nat_inj heq
    exact hne (by omega)
  · intro hty
    rw [stepNode_type, stepNode_type, hty]

/-- Witness for C5 at a plan with two steps of the unknown type `Foo`. -/
theorem nodeType_resolution_witness :
    NODE_SPECS "Foo" = none ∧
    alookup "type" (nodeAt (renderWorkflow exPlanUnknownTwice) 1) = some (.str "Foo") ∧
    alookup "id" (nodeAt (renderWorkflow exPlanUnknownTwice) 1)
      ≠ alookup "id" (nodeAt (renderWorkflow exPlanUnknownTwice) 2) ∧
    alookup "type" (nodeAt (renderWorkflow exPlanUnknownTwice) 1)
      = alookup "type" (nodeAt (renderWorkflow exPlanUnknownTwice) 2) := by
  have h := nodeType_resolution exPlanUnknownTwice 0 1 (by decide) (by decide) (by decide)
  exact ⟨rfl, h.2.1 rfl, h.2.2.1, h.2.2.2 rfl⟩

/-! ### Edges from the connection phase -/

theorem hasEdge_render_of_parent (args : RenderArgsT) (i : Nat) (h : i < args.steps.length)
    (p : String)
    (hp : p ∈ parentsOf (args.steps.get ⟨i, h⟩) (idByStep args.steps)
        (connLoop (idByStep args.steps) [] "1" 0 (args.steps.take i)).2) :
    hasEdge (renderWorkflow args).connections p (toString (i + 2)) := by
  have hsteps : args.steps.take i ++ args.steps.drop i = args.steps :=
    List.take_append_drop _ _
  have hdrop : args.steps.drop i = args.steps.get ⟨i, h⟩ :: args.steps.drop (i + 1) := by
    rw [List.drop_eq_getElem_cons h]
    rfl
  have hlen : (args.steps.take i).length = i := by
    rw [List.length_take]
    omega
  have hfull : ∀ idMap : List (String × String), connLoop idMap [] "1" 0 args.steps
      = connLoop idMap
          (connLoop idMap [] "1" 0 (args.steps.take i)).1
          (connLoop idMap [] "1" 0 (args.steps.take i)).2
          i (args.steps.drop i) := by
    intro idMap
    conv_lhs => rw [← hsteps]
    rw [connLoop_append idMap (args.steps.take i) (args.steps.drop i) [] "1" 0, hlen]
    simp only [Nat.zero_add]
  have hfull := hfull (idByStep args.steps)
  show hasEdge (connLoop (idByStep args.steps) [] "1" 0 args.steps).1 p (toString (i + 2))
  rw [hfull, hdrop]
  simp only [connLoop]
  apply connLoop_hasEdge_mono
  exact hasEdge_foldl_of_mem _
    (connLoop_fst_wf (idByStep args.steps) _ [] "1" 0 wfConns_nil) hp

/-- C9: for every well-typed plan the render is total (the embedding is
a plain total function, so no input raises) and every non-trigger node,
i.e. the node of the step at every index `i`, has at least one incoming
edge in the returned connections. -/
theorem render_step_has_incoming (args : RenderArgsT) (i : Nat)
    (h : i < args.steps.length) :
    ∃ p, hasEdge (renderWorkflow args).connections p (toString (i + 2)) := by
  obtain ⟨p, hp⟩ := List.exists_mem_of_ne_nil _
    (parentsOf_ne_nil (args.steps.get ⟨i, h⟩) (idByStep args.steps)
      (connLoop (idByStep args.steps) [] "1" 0 (args.steps.take i)).2)
  exact ⟨p, hasEdge_render_of_parent args i h p hp⟩

/-- Witness for C9 at a plan whose only step has a dangling dependsOn
token: the render still gives node "2" an incoming edge. -/
theorem render_step_has_incoming_witness :
    ∃ p, hasEdge (renderWorkflow exPlanDangling).connections p "2" :=
  render_step_has_incoming exPlanDangling 0 (by decide)

/-- C7: after processing the step at position `i` the previous-node
cursor equals that step's id `toString (i+2)` whatever its own parents
were, so a following step without `dependsOn` connects to it even when
it used out-of-order explicit dependencies. -/
theorem connLoop_prev_invariant (args : RenderArgsT) (i : Nat)
    (h : i + 1 < args.steps.length) :
    (connLoop (idByStep args.steps) [] "1" 0 (args.steps.take (i + 1))).2
      = toString (i + 2) ∧
    (noDepends (args.steps.get ⟨i + 1, h⟩) →
      hasEdge (renderWorkflow args).connections (toString (i + 2)) (toString (i + 3))) := by
  have hlen : (args.steps.take (i + 1)).length = i + 1 := by
    rw [List.length_take]
    omega
  have hne : args.steps.take (i + 1) ≠ [] := by
    intro hnil
    rw [hnil] at hlen
    simp at hlen
  have hcur := connLoop_snd (idByStep args.steps) (args.steps.take (i + 1)) [] "1" 0 hne
  rw [hlen] at hcur
  have harith : 0 + (i + 1) + 1 = i + 2 := by omega
  rw [harith] at hcur
  refine ⟨hcur, ?_⟩
  intro hnod
  show hasEdge (renderWorkflow args).connections (toString (i + 2)) (toString (i + 1 + 2))
  apply hasEdge_render_of_parent args (i + 1) h
  rw [parentsOf_noDepends _ _ hnod, hcur]
  exact List.mem_singleton.mpr rfl

/-- Witness for C7 at a plan whose first step depends (out of order) on
the second: after step 1 the cursor is still "2", and step 2 (no
dependsOn) is connected from node "2". -/
theorem connLoop_prev_invariant_witness :
    (connLoop (idByStep exPlanOutOfOrder.steps) [] "1" 0 (exPlanOutOfOrder.steps.take 1)).2
      = "2" ∧
    hasEdge (renderWorkflow exPlanOutOfOrder).connections "2" "3" := by
  have h := connLoop_prev_invariant exPlanOutOfOrder 0 (by decide)
  exact ⟨h.1, h.2 (by decide)⟩

/-! ### The connection phase refines the spec wording -/

theorem idByStepEntries_val {k v : String} :
    ∀ (steps : List StepSpecT) (ord : Nat), (k, v) ∈ idByStepEntries ord steps →
      ∃ m : Nat, v = toString m := by
  intro steps
  induction steps with
  | nil => intro ord h; simp [idByStepEntries] at h
  | cons s rest ih =>
    intro ord h
    rcases List.mem_cons.mp h with h | h
    · exact ⟨ord, congrArg Prod.snd h⟩
    · exact ih (ord + 1) h

theorem idByStep_val_ne_empty {k v : String} {steps : List StepSpecT}
    (h : alookup k (idByStep steps) = some v) : v ≠ "" := by
  have hmem := alookup_mem h
  rw [idByStep, List.mem_reverse] at hmem
  obtain ⟨m, hm⟩ := idByStepEntries_val steps 2 hmem
  rw [hm]
  exact toString_nat_ne_empty m

theorem parentsOf_eq_spec (s : StepSpecT) (idMap : List (String × String)) (prev : String)
    (hval : ∀ k v, alookup k idMap = some v → v ≠ "") :
    parentsOf s idMap prev = parentsSpec s idMap prev := by
  unfold parentsOf parentsSpec
  cases s.dependsOn with
  | none => rfl
  | some deps =>
    cases deps with
    | nil => simp
    | cons d ds =>
      simp only [List.length_cons, ne_eq, Nat.succ_ne_zero, not_false_iff, if_true,
        reduceCtorEq, if_neg]
      apply List.map_congr_left
      intro k _
      unfold resolveTokenSpec
      by_cases hk : k = "trigger"
      · simp [hk]
      · rw [if_neg hk, if_neg hk]
        cases hkv : alookup k idMap with
        | none => rfl
        | some v =>
          have hv := hval k v hkv
          simp [jsOrStr, hv]

theorem connLoop_eq_spec (idMap : List (String × String))
    (hval : ∀ k v, alookup k idMap = some v → v ≠ "") :
    ∀ (steps : List StepSpecT) (c : JObj) (prev : String) (i : Nat),
      (connLoop idMap c prev i steps).1 = connLoopSpec idMap c prev i steps := by
  intro steps
  induction steps with
  | nil => intro c prev i; rfl
  | cons s rest ih =>
    intro c prev i
    simp only [connLoop, connLoopSpec]
    rw [← parentsOf_eq_spec s idMap prev hval]
    exact ih _ _ _

/-- C2: the connection phase computes each step's parent set exactly as
the spec words it (the `trigger` token maps to the trigger id "1", other
tokens are looked up in the step-key-to-id map with silent fallback to
the previous cursor, and absent or empty `dependsOn` gives the singleton
previous cursor), one edge being appended from every parent; in
particular `dependsOn` containing "trigger" always produces an edge from
node "1" to that step, regardless of position. -/
theorem connections_refine_spec (args : RenderArgsT) :
    (renderWorkflow args).connections = connectionsSpec args ∧
    ∀ i (hi : i < args.steps.length) (deps : List String),
      (args.steps.get ⟨i, hi⟩).dependsOn = some deps → "trigger" ∈ deps →
      hasEdge (renderWorkflow args).connections "1" (toString (i + 2)) := by
  constructor
  · show (connLoop (idByStep args.steps) [] "1" 0 args.steps).1 = _
    exact connLoop_eq_spec (idByStep args.steps)
      (fun k v hkv => idByStep_val_ne_empty hkv) args.steps [] "1" 0
  · intro i hi deps hdeps htrig
    apply hasEdge_render_of_parent args i hi "1"
    unfold parentsOf
    rw [hdeps]
    dsimp only
    have hlen : deps.length ≠ 0 := by
      intro h0
      rw [List.length_eq_zero] at h0
      subst h0
      simp at htrig
    rw [if_pos hlen]
    exact List.mem_map.mpr ⟨"trigger", htrig, by simp⟩

/-- Witness for C2 at a plan whose second step depends on the trigger:
the code and the spec-side connection phases agree, and the trigger edge
1 → 3 exists. -/
theorem connections_refine_spec_witness :
    (renderWorkflow exPlanTriggerDep).connections = connectionsSpec exPlanTriggerDep ∧
    hasEdge (renderWorkflow exPlanTriggerDep).connections "1" "3" := by
  have h := connections_refine_spec exPlanTriggerDep
  exact ⟨h.1, h.2 1 (by decide) ["trigger"] rfl (by decide)⟩

/-! ### Graph shape: actual field names -/

theorem stepNodes_mem {nd : JObj} :
    ∀ (steps : List StepSpecT) (ord : Nat), nd ∈ stepNodes ord steps →
      ∃ s o, nd = stepNode s o := by
  intro steps
  induction steps with
  | nil => intro ord h; simp [stepNodes] at h
  | cons s rest ih =>
    intro ord h
    rcases List.mem_cons.mp h with h | h
    · exact ⟨s, ord, h⟩
    · exact ih (ord + 1) h

/-- C3 counterexample: the rendered graph does not use the field names
the claim requires.  At a concrete one-step plan, the single edge is a
record with fields `node`/`type`/`index` (no `targetNodeId`, `portType`
or `portIndex` keys), and the step node stores its type identifier under
`type`, not `engineType`. -/
theorem graph_field_names_counterexample :
    (renderWorkflow exPlanOneStep).connections = [("1", mainWrap [mkEdge "2"])] ∧
    mkEdge "2" = .obj [("node", .str "2"), ("type", .str "main"), ("index", .num 0)] ∧
    alookup "targetNodeId" [("node", JVal.str "2"), ("type", .str "main"), ("index", .num 0)]
      = none ∧
    alookup "portType" [("node", JVal.str "2"), ("type", .str "main"), ("index", .num 0)]
      = none ∧
    alookup "portIndex" [("node", JVal.str "2"), ("type", .str "main"), ("index", .num 0)]
      = none ∧
    alookup "engineType" (nodeAt (renderWorkflow exPlanOneStep) 1) = none ∧
    alookup "type" (nodeAt (renderWorkflow exPlanOneStep) 1)
      = some (.str "n8n-nodes-base.httpRequest") :=
  ⟨rfl, rfl, rfl, rfl, rfl, rfl, rfl⟩

/-- C3 (amended): the render returns a record with a node list and a
connections object keyed by source node id; every connection value is
the one-output-port fan-out `{ main: [[ ... ]] }` whose edges all are
records `{ node: target, type: "main", index: 0 }`, and every node
carries its engine type identifier under the field name `type`. -/
theorem graph_shape_amended (args : RenderArgsT) :
    wfConns (renderWorkflow args).connections ∧
    ∀ nd ∈ (renderWorkflow args).nodes, ∃ t, alookup "type" nd = some (.str t) := by
  constructor
  · exact connLoop_fst_wf _ _ [] "1" 0 wfConns_nil
  · intro nd hnd
    rcases List.mem_cons.mp hnd with hnd | hnd
    · subst hnd
      obtain ⟨n, tr, c, st⟩ := args
      cases tr
      · exact ⟨"n8n-nodes-base.manualTrigger", rfl⟩
      · exact ⟨"n8n-nodes-base.cron", rfl⟩
      · exact ⟨"n8n-nodes-base.webhook", rfl⟩
    · obtain ⟨s, o, hso⟩ := stepNodes_mem args.steps 2 hnd
      subst hso
      exact ⟨(resolveSpec s.type).type, stepNode_type s o⟩

/-- Witness for the amended C3 at a concrete two-step plan. -/
theorem graph_shape_amended_witness :
    wfConns (renderWorkflow exPlanTwoSteps).connections ∧
    ∃ t, alookup "type" (nodeAt (renderWorkflow exPlanTwoSteps) 1) = some (.str t) := by
  have h := graph_shape_amended exPlanTwoSteps
  refine ⟨h.1, ?_⟩
  apply h.2
  exact List.Mem.tail _ (List.Mem.head _)
